import Mathlib

/-!
Verification of the noise engines of the gsoc-2025-gemini-robustness
repository.  The definitions below are a shallow embedding of
`src/CharacterNoiseFunctions.py` (character-level noise) and
`src/ImageNoiseFunctions.py` (Gaussian blur and occlusion).  All randomness
consumed by the Python code (`random.sample`, `random.choice`,
`np.random.randint`) is passed in explicitly, so every theorem quantifies
over all outcomes of the random draws.
-/

/-- Operation assigned to a selected index; the Python list
`operations = [substitute, delete, insert, swap]` in `add_char_noise`. -/
inductive Op where
  | substitute
  | delete
  | insert
  | swap
deriving DecidableEq

/-- NOISE_LEVEL_PERCENTAGES: tier name to fraction of characters targeted. -/
def NOISE_LEVEL_PERCENTAGES : List (String × ℚ) :=
  [("low", 5/100), ("medium", 15/100), ("high", 25/100)]

/-- string.ascii_lowercase, codes 97..122. -/
def ascii_lowercase : List Char := (List.range 26).map (fun j => Char.ofNat (97 + j))

/-- string.ascii_uppercase, codes 65..90. -/
def ascii_uppercase : List Char := (List.range 26).map (fun j => Char.ofNat (65 + j))

/-- string.digits, codes 48..57. -/
def ascii_digits : List Char := (List.range 10).map (fun j => Char.ofNat (48 + j))

/-- string.punctuation: the 32 ASCII punctuation characters,
codes 33..47, 58..64, 91..96 and 123..126. -/
def ascii_punctuation : List Char :=
  ((List.range 15).map (fun j => Char.ofNat (33 + j))) ++
    ((List.range 7).map (fun j => Char.ofNat (58 + j))) ++
    ((List.range 6).map (fun j => Char.ofNat (91 + j))) ++
    ((List.range 4).map (fun j => Char.ofNat (123 + j)))

/-- ALPHABETS entry for english:
string.ascii_letters + string.digits + string.punctuation + one space. -/
def englishAlphabet : List Char :=
  ascii_lowercase ++ ascii_uppercase ++ ascii_digits ++ ascii_punctuation ++ [' ']

/-- ALPHABETS entry for hindi: the Devanagari letters of the source plus
the punctuation suffix, where code 39 is the apostrophe. -/
def hindiAlphabet : List Char :=
  "अआइईउऊएऐओऔकखगघचछजझटठडढतथदधनपफबभमयरलवशषसह".toList ++
    ".,!?".toList ++ [Char.ofNat 39, ' ']

/-- ALPHABETS entry for igbo: base Latin, digits, space, punctuation
(code 39 is the apostrophe), then the dotted Igbo letters. -/
def igboAlphabet : List Char :=
  "abcdefghijklmnopqrstuvwxyzABCDEFGHIJKLMNOPQRSTUVWXYZ0123456789 .,!?".toList ++
    [Char.ofNat 39] ++ "ịỊọỌụỤṅṄ".toList

/-- ALPHABETS: language identifier to insertion/substitution alphabet. -/
def ALPHABETS : List (String × List Char) :=
  [("english", englishAlphabet), ("hindi", hindiAlphabet), ("igbo", igboAlphabet)]

/-- One outcome of all random draws made by `add_char_noise`:
`sampleIdx` is the result of `random.sample(range(len(text)), k)`,
`opChoice` gives the `random.choice(operations)` outcome for each selected
index, and `draws` is the stream of raw draws backing every
`random.choice(alphabet)` call (each draw is reduced modulo the alphabet
size, so every stream value denotes a valid pick). -/
structure Randomness where
  sampleIdx : List Nat
  opChoice : Nat → Op
  draws : Nat → Nat

/-- random.choice over a list, driven by one raw draw.  The Python call is
only reached with a non-empty list, where the default is never used. -/
def randChoice (l : List Char) (d : Nat) : Char :=
  l.getD (d % l.length) ' '

/-- The bounded retry loop of the substitute branch:
`while new_char == original_char and len(alphabet) > 1 and attempts < 5`,
with `remaining = 5 - attempts`.  Returns the chosen character together
with the next unused position of the draw stream. -/
def subRetry (alphabet : List Char) (orig : Char) (draws : Nat → Nat) :
    Nat → Char → Nat → Char × Nat
  | 0, cur, p => (cur, p)
  | remaining + 1, cur, p =>
    if cur = orig ∧ 1 < alphabet.length then
      subRetry alphabet orig draws remaining (randChoice alphabet (draws p)) (p + 1)
    else (cur, p)

/-- The application walk of `add_char_noise` (the `while i < len(text)`
loop).  The first list argument is the suffix of the original text starting
at index `i`; `p` is the next unused position of the draw stream and
`processed` is the set of indices consumed by a swap. -/
def noiseWalk (alphabet : List Char) (mods : Nat → Option Op) (draws : Nat → Nat) :
    List Char → Nat → Nat → List Nat → List Char
  | [], _, _, _ => []
  | c :: rest, i, p, processed =>
    match decide (i ∈ processed), mods i with
    | true, _ => noiseWalk alphabet mods draws rest (i + 1) p processed
    | false, none => c :: noiseWalk alphabet mods draws rest (i + 1) p processed
    | false, some Op.delete => noiseWalk alphabet mods draws rest (i + 1) p processed
    | false, some Op.substitute =>
      let r := subRetry alphabet c draws 5 (randChoice alphabet (draws p)) (p + 1)
      r.1 :: noiseWalk alphabet mods draws rest (i + 1) r.2 processed
    | false, some Op.insert =>
      randChoice alphabet (draws p) :: c ::
        noiseWalk alphabet mods draws rest (i + 1) (p + 1) processed
    | false, some Op.swap =>
      match rest with
      | d :: rest2 =>
        d :: c :: noiseWalk alphabet mods draws rest2 (i + 2) p ((i + 1) :: processed)
      | [] => [c]

/-- The `modifications` dictionary built from the sampled indices:
`{idx: random.choice(operations) for idx in indices_to_modify}`. -/
def planOf (ra : Randomness) : Nat → Option Op :=
  fun j => if j ∈ ra.sampleIdx then some (ra.opChoice j) else none

/-- The guarantees `random.sample(range(n), k)` gives about its result:
`k` distinct indices inside `[0, n)`. -/
def ValidSample (ra : Randomness) (n k : Nat) : Prop :=
  ra.sampleIdx.Nodup ∧ ra.sampleIdx.length = k ∧ ∀ j ∈ ra.sampleIdx, j < n

/-- Python str.lower applied to tier and language names: lowercases every
character (ASCII for the names in use).  Extensionally identical to
String.toLower, written over the character list so it evaluates by kernel
reduction. -/
def lower (s : String) : String := String.mk (s.data.map Char.toLower)

/-- add_char_noise of `src/CharacterNoiseFunctions.py`.  Mirrors the source
order: empty-text early return, tier validation (after lowercasing),
language validation (after lowercasing), empty-alphabet check, modification
count `int(percentage * len(text))`, then the application walk.  Failure is
an `Except.error` carrying the ValueError message. -/
def add_char_noise (text noise_level language : String) (ra : Randomness) :
    Except String String :=
  if text.length = 0 then Except.ok ""
  else
    match NOISE_LEVEL_PERCENTAGES.lookup (lower noise_level) with
    | none => Except.error "Invalid noise_level"
    | some percentage =>
      match ALPHABETS.lookup (lower language) with
      | none => Except.error "Unsupported language"
      | some alphabet =>
        if alphabet = [] then Except.error "Alphabet is empty or missing"
        else
          if (⌊percentage * (text.length : ℚ)⌋).toNat = 0 then Except.ok text
          else
            Except.ok
              (String.mk (noiseWalk alphabet (planOf ra) ra.draws text.toList 0 0 []))

/-- An in-memory image buffer: a rectangular grid of per-channel rational
samples.  A grayscale (2-D) array is the case `channels = 1`.  Indexing
outside the grid is irrelevant to every statement below. -/
structure Image where
  height : Nat
  width : Nat
  channels : Nat
  data : Nat → Nat → Nat → ℚ

/-- The ndarray branch of `_load_image`: the input is copied (the pure
embedding returns it unchanged) and rejected when its total size is zero.
The dimensionality check (2-D or 3-D) is carried by the `Image` type. -/
def load_image (img : Image) : Except String Image :=
  if img.height * img.width * img.channels = 0 then Except.error "Input image is empty"
  else Except.ok img

/-- The `match blur_level` of `apply_gaussian_blur`: tier name to sigma.
Note the source matches the raw string, without lowercasing. -/
def sigmaOfLevel (blur_level : String) : Option ℚ :=
  if blur_level = "low" then some 1
  else if blur_level = "medium" then some 3
  else if blur_level = "high" then some 6
  else none

/-- The `match occlusion_level` of `apply_occlusion`: tier name to area
ratio.  The source matches the raw string, without lowercasing. -/
def ratioOfLevel (occlusion_level : String) : Option ℚ :=
  if occlusion_level = "low" then some (8/100)
  else if occlusion_level = "medium" then some (20/100)
  else if occlusion_level = "high" then some (40/100)
  else none

/-- Validation and tier dispatch of `apply_gaussian_blur`, returning the
selected sigma.  The Gaussian convolution itself is the external
`cv.GaussianBlur` primitive and is outside the embedded code. -/
def gaussianBlurSigma (img : Image) (blur_level : String) : Except String ℚ :=
  match load_image img with
  | Except.error e => Except.error e
  | Except.ok _ =>
    match sigmaOfLevel blur_level with
    | none => Except.error "Invalid blur_level"
    | some sigma => Except.ok sigma

/-- `int(np.sqrt(ratio) * d)` for a non-negative rational ratio: equals
`Nat.sqrt` of `Rat.floor (ratio * d ^ 2)`, since for real `x >= 0` one has
`floor (sqrt x) = Nat.sqrt (floor x)` and `sqrt ratio * d = sqrt (ratio * d ^ 2)`. -/
def patchDim (ratio : ℚ) (d : Nat) : Nat :=
  Nat.sqrt (⌊ratio * (d : ℚ) ^ 2⌋).toNat

/-- Patch extent on one axis: `max(1, int(np.sqrt(ratio) * d))`. -/
def patchExtent (ratio : ℚ) (d : Nat) : Nat := max 1 (patchDim ratio d)

/-- `np.random.randint(0, max_c + 1)` where `max_c = max(0, dim - patch)`:
the raw draw reduced into the inclusive range `[0, dim - patch]`. -/
def startOffset (draw dim patch : Nat) : Nat := draw % (dim - patch + 1)

/-- cv.mean: the mean sample of channel `ch` over the whole image. -/
def meanColor (img : Image) (ch : Nat) : ℚ :=
  (∑ y ∈ Finset.range img.height, ∑ x ∈ Finset.range img.width, img.data y x ch) /
    ((img.height : ℚ) * (img.width : ℚ))

/-- Write the color `v` at pixel `(y, x)` of a data grid. -/
def setPixel (d : Nat → Nat → Nat → ℚ) (y x : Nat) (v : Nat → ℚ) :
    Nat → Nat → Nat → ℚ :=
  fun y2 x2 ch => if y2 = y ∧ x2 = x then v ch else d y2 x2 ch

/-- Fill one row of a rectangle: every pixel `(y, x)` with `x ∈ xs`. -/
def fillRow (v : Nat → ℚ) (y : Nat) (xs : List Nat) (d : Nat → Nat → Nat → ℚ) :
    Nat → Nat → Nat → ℚ :=
  xs.foldl (fun a x => setPixel a y x v) d

/-- Fill the pixels `\x7b(y, x) | y ∈ ys, x ∈ xs\x7d` with color `v`. -/
def fillRect (v : Nat → ℚ) (ys xs : List Nat) (d : Nat → Nat → Nat → ℚ) :
    Nat → Nat → Nat → ℚ :=
  ys.foldl (fun a y => fillRow v y xs a) d

/-- cv.rectangle with thickness -1 on an `h × w` image: fills the rectangle
with both corners `(sx, sy)` and `(ex, ey)` inclusive, clipped to the image. -/
def rectangle (d : Nat → Nat → Nat → ℚ) (h w sy sx ey ex : Nat) (v : Nat → ℚ) :
    Nat → Nat → Nat → ℚ :=
  fillRect v (List.range' sy (min ey (h - 1) + 1 - sy))
    (List.range' sx (min ex (w - 1) + 1 - sx)) d

/-- apply_occlusion of `src/ImageNoiseFunctions.py`.  `dy` and `dx` are the
raw draws behind the two `np.random.randint` calls.  Mirrors the source
order: `_load_image`, tier match, patch dimensions (clamped to 1), random
top-left corner within bounds, mean color, then `cv.rectangle` with
thickness -1 on the copy. -/
def apply_occlusion (img : Image) (occlusion_level : String) (dy dx : Nat) :
    Except String Image :=
  match load_image img with
  | Except.error e => Except.error e
  | Except.ok im =>
    match ratioOfLevel occlusion_level with
    | none => Except.error "Invalid occlusion_level"
    | some ratio =>
      let patch_h := patchExtent ratio im.height
      let patch_w := patchExtent ratio im.width
      let start_y := startOffset dy im.height patch_h
      let start_x := startOffset dx im.width patch_w
      Except.ok
        { height := im.height, width := im.width, channels := im.channels,
          data := rectangle im.data im.height im.width start_y start_x
            (start_y + patch_h) (start_x + patch_w) (meanColor im) }

/-- A fixed outcome of the random draws, used to instantiate theorems on
concrete inputs. -/
def ra0 : Randomness := ⟨[], fun _ => Op.substitute, fun _ => 0⟩

/-- A concrete 1 x 1 single-channel image. -/
def img1 : Image := ⟨1, 1, 1, fun _ _ _ => 0⟩

/-- C9: for the empty input string, add_char_noise returns the empty string
for every noise_level and language argument, including unrecognized ones:
the empty-text early return precedes tier and language validation. -/
theorem add_char_noise_empty_input (tier lang : String) (ra : Randomness) :
    add_char_noise "" tier lang ra = Except.ok "" := rfl

/-- C3 counterexample: with empty text and an unrecognized tier and
language, add_char_noise returns successfully instead of raising, so the
claim fails as stated for the input text being empty. -/
theorem empty_text_skips_validation_cex :
    add_char_noise "" "bogus" "nolang" ra0 = Except.ok "" := rfl

/-- C3 (amended to non-empty text): for every non-empty text, an
unrecognized tier name or unrecognized language (after case folding) makes
add_char_noise fail with the same ValueError for every outcome of the
random draws (so no draw influences the failure); and every registered
alphabet is non-empty, so the empty-alphabet ValueError branch also
precedes every random draw. -/
theorem add_char_noise_invalid_argument (text tier lang : String)
    (hne : text.length ≠ 0)
    (hinv : NOISE_LEVEL_PERCENTAGES.lookup (lower tier) = none ∨
      ALPHABETS.lookup (lower lang) = none) :
    (∃ e, ∀ ra, add_char_noise text tier lang ra = Except.error e) ∧
      (∀ l a, ALPHABETS.lookup l = some a → a ≠ []) := by
  constructor
  · rcases hinv with h | h
    · exact ⟨"Invalid noise_level", fun ra => by
        simp only [add_char_noise, if_neg hne, h]⟩
    · cases h1 : NOISE_LEVEL_PERCENTAGES.lookup (lower tier) with
      | none =>
        exact ⟨"Invalid noise_level", fun ra => by
          simp only [add_char_noise, if_neg hne, h1]⟩
      | some p =>
        exact ⟨"Unsupported language", fun ra => by
          simp only [add_char_noise, if_neg hne, h1, h]⟩
  · intro l a h
    simp only [ALPHABETS, List.lookup] at h
    split at h
    · cases h; decide
    · split at h
      · cases h; decide
      · split at h
        · cases h; decide
        · cases h


/-- C3 witness: the amended theorem applied at text "x", tier "bogus",
language "english". -/
theorem add_char_noise_invalid_argument_witness :
    ("x".length ≠ 0) ∧
      (NOISE_LEVEL_PERCENTAGES.lookup (lower "bogus") = none ∨
        ALPHABETS.lookup (lower "english") = none) ∧
      ((∃ e, ∀ ra, add_char_noise "x" "bogus" "english" ra = Except.error e) ∧
        (∀ l a, ALPHABETS.lookup l = some a → a ≠ [])) :=
  ⟨by decide, Or.inl rfl,
    add_char_noise_invalid_argument "x" "bogus" "english" (by decide) (Or.inl rfl)⟩

/-- C4 counterexample: the tier argument is not case-insensitive for the
image operations.  "Low" folds to "low", and "low" succeeds, but
apply_gaussian_blur and apply_occlusion reject "Low" with a ValueError
(the text operation, in contrast, accepts it). -/
theorem tier_case_cex :
    lower "Low" = "low" ∧
      gaussianBlurSigma img1 "low" = Except.ok 1 ∧
      gaussianBlurSigma img1 "Low" = Except.error "Invalid blur_level" ∧
      apply_occlusion img1 "Low" 0 0 = Except.error "Invalid occlusion_level" ∧
      add_char_noise "abc" "Low" "english" ra0 = add_char_noise "abc" "low" "english" ra0 :=
  ⟨rfl, rfl, rfl, rfl, rfl⟩

/-- C4 (amended): only applyTextNoise treats the tier case-insensitively
(any casing variant of a tier name gives the same result as the lowercase
name); the blur and occlusion operations accept exactly the lowercase names
"low" / "medium" / "high".  The numeric parameters are fraction
0.05 / 0.15 / 0.25 for text, sigma 1.0 / 3.0 / 6.0 for blur and ratio
0.08 / 0.20 / 0.40 for occlusion. -/
theorem tier_case_insensitivity_amended :
    (∀ s t text lang : String, ∀ ra : Randomness, lower s = t → lower t = t →
        add_char_noise text s lang ra = add_char_noise text t lang ra) ∧
      (NOISE_LEVEL_PERCENTAGES.lookup "low" = some (5/100) ∧
        NOISE_LEVEL_PERCENTAGES.lookup "medium" = some (15/100) ∧
        NOISE_LEVEL_PERCENTAGES.lookup "high" = some (25/100)) ∧
      (sigmaOfLevel "low" = some 1 ∧ sigmaOfLevel "medium" = some 3 ∧
        sigmaOfLevel "high" = some 6 ∧
        ∀ s q, sigmaOfLevel s = some q → s = "low" ∨ s = "medium" ∨ s = "high") ∧
      (ratioOfLevel "low" = some (8/100) ∧ ratioOfLevel "medium" = some (20/100) ∧
        ratioOfLevel "high" = some (40/100) ∧
        ∀ s q, ratioOfLevel s = some q → s = "low" ∨ s = "medium" ∨ s = "high") := by
  refine ⟨?_, ⟨rfl, rfl, rfl⟩, ⟨rfl, rfl, rfl, ?_⟩, ⟨rfl, rfl, rfl, ?_⟩⟩
  · intro s t text lang ra hst htt
    simp only [add_char_noise, hst, htt]
  · intro s q h
    unfold sigmaOfLevel at h
    split_ifs at h with h1 h2 h3
    · exact Or.inl h1
    · exact Or.inr (Or.inl h2)
    · exact Or.inr (Or.inr h3)
  · intro s q h
    unfold ratioOfLevel at h
    split_ifs at h with h1 h2 h3
    · exact Or.inl h1
    · exact Or.inr (Or.inl h2)
    · exact Or.inr (Or.inr h3)

/-- C4 witness: the amended case-insensitivity of the text operation
applied at tier casing "LOW". -/
theorem tier_case_insensitivity_amended_witness :
    add_char_noise "hello" "LOW" "english" ra0 =
      add_char_noise "hello" "low" "english" ra0 :=
  tier_case_insensitivity_amended.1 "LOW" "low" "hello" "english" ra0 rfl rfl

/-- C6: whenever the modification count `int(tierFraction * len(text))` is
zero (in particular whenever text is empty), add_char_noise returns the
input text unchanged, for every outcome of the random draws. -/
theorem add_char_noise_k_zero_identity (text tier lang : String) (ra : Randomness)
    (p : ℚ) (a : List Char)
    (h1 : NOISE_LEVEL_PERCENTAGES.lookup (lower tier) = some p)
    (h2 : ALPHABETS.lookup (lower lang) = some a)
    (ha : a ≠ [])
    (hk : (⌊p * (text.length : ℚ)⌋).toNat = 0) :
    add_char_noise text tier lang ra = Except.ok text := by
  by_cases h0 : text.length = 0
  · have he : text = "" := by
      cases text with
      | mk l =>
        simp only [String.length, List.length_eq_zero] at h0
        simp [h0]
    rw [he]
    rfl
  · simp only [add_char_noise, if_neg h0, h1, h2, if_neg ha, hk, if_pos]

/-- C6 witness: the concrete scenario of the claim, text "abcde" with tier
Low (fraction 0.05, k = 0) returning "abcde". -/
theorem add_char_noise_k_zero_identity_witness :
    add_char_noise "abcde" "Low" "English" ra0 = Except.ok "abcde" :=
  add_char_noise_k_zero_identity "abcde" "Low" "English" ra0 (5/100)
    englishAlphabet rfl rfl (by decide)
    (by rw [show ("abcde" : String).length = 5 from rfl]; norm_num)

/-- Step equation: the walk terminates at the end of the text. -/
theorem noiseWalk_nil (alphabet : List Char) (mods : Nat → Option Op)
    (draws : Nat → Nat) (i p : Nat) (pr : List Nat) :
    noiseWalk alphabet mods draws [] i p pr = [] := rfl

/-- Step equation: an index consumed by a previous swap is skipped. -/
theorem noiseWalk_skip (alphabet : List Char) (mods : Nat → Option Op)
    (draws : Nat → Nat) (c : Char) (rest : List Char) (i p : Nat) (pr : List Nat)
    (h : i ∈ pr) :
    noiseWalk alphabet mods draws (c :: rest) i p pr =
      noiseWalk alphabet mods draws rest (i + 1) p pr := by
  cases rest <;> simp [noiseWalk, h]

/-- Step equation: an unplanned index emits its character unchanged. -/
theorem noiseWalk_unplanned (alphabet : List Char) (mods : Nat → Option Op)
    (draws : Nat → Nat) (c : Char) (rest : List Char) (i p : Nat) (pr : List Nat)
    (h : i ∉ pr) (hm : mods i = none) :
    noiseWalk alphabet mods draws (c :: rest) i p pr =
      c :: noiseWalk alphabet mods draws rest (i + 1) p pr := by
  cases rest <;> simp [noiseWalk, h, hm]

/-- Step equation: a Delete emits nothing. -/
theorem noiseWalk_delete (alphabet : List Char) (mods : Nat → Option Op)
    (draws : Nat → Nat) (c : Char) (rest : List Char) (i p : Nat) (pr : List Nat)
    (h : i ∉ pr) (hm : mods i = some Op.delete) :
    noiseWalk alphabet mods draws (c :: rest) i p pr =
      noiseWalk alphabet mods draws rest (i + 1) p pr := by
  cases rest <;> simp [noiseWalk, h, hm]

/-- Step equation: a Substitute emits the retry-loop choice. -/
theorem noiseWalk_substitute (alphabet : List Char) (mods : Nat → Option Op)
    (draws : Nat → Nat) (c : Char) (rest : List Char) (i p : Nat) (pr : List Nat)
    (h : i ∉ pr) (hm : mods i = some Op.substitute) :
    noiseWalk alphabet mods draws (c :: rest) i p pr =
      (subRetry alphabet c draws 5 (randChoice alphabet (draws p)) (p + 1)).1 ::
        noiseWalk alphabet mods draws rest (i + 1)
          (subRetry alphabet c draws 5 (randChoice alphabet (draws p)) (p + 1)).2 pr := by
  cases rest <;> simp [noiseWalk, h, hm]

/-- Step equation: an Insert emits a drawn character, then the original. -/
theorem noiseWalk_insert (alphabet : List Char) (mods : Nat → Option Op)
    (draws : Nat → Nat) (c : Char) (rest : List Char) (i p : Nat) (pr : List Nat)
    (h : i ∉ pr) (hm : mods i = some Op.insert) :
    noiseWalk alphabet mods draws (c :: rest) i p pr =
      randChoice alphabet (draws p) :: c ::
        noiseWalk alphabet mods draws rest (i + 1) (p + 1) pr := by
  cases rest <;> simp [noiseWalk, h, hm]

/-- Step equation: a Swap with a next character emits the pair exchanged,
marks the neighbor consumed and advances by two. -/
theorem noiseWalk_swap_cons (alphabet : List Char) (mods : Nat → Option Op)
    (draws : Nat → Nat) (c d : Char) (rest2 : List Char) (i p : Nat) (pr : List Nat)
    (h : i ∉ pr) (hm : mods i = some Op.swap) :
    noiseWalk alphabet mods draws (c :: d :: rest2) i p pr =
      d :: c :: noiseWalk alphabet mods draws rest2 (i + 2) p ((i + 1) :: pr) := by
  simp [noiseWalk, h, hm]

/-- Step equation: a Swap at the final index falls back to emitting the
original character unchanged. -/
theorem noiseWalk_swap_last (alphabet : List Char) (mods : Nat → Option Op)
    (draws : Nat → Nat) (c : Char) (i p : Nat) (pr : List Nat)
    (h : i ∉ pr) (hm : mods i = some Op.swap) :
    noiseWalk alphabet mods draws [c] i p pr = [c] := by
  simp [noiseWalk, h, hm]

/-- Number of positions in `[i, i + len)` that carry a planned operation. -/
def planCount (mods : Nat → Option Op) : Nat → Nat → Nat
  | _, 0 => 0
  | i, len + 1 => (if (mods i).isSome then 1 else 0) + planCount mods (i + 1) len

/-- Unfolding equation for planCount. -/
theorem planCount_succ (mods : Nat → Option Op) (i len : Nat) :
    planCount mods i (len + 1) =
      (if (mods i).isSome then 1 else 0) + planCount mods (i + 1) len := rfl

/-- Core length invariant of the application walk: on a suffix in which no
index was consumed yet, every planned position changes the emitted length
by at most one in each direction. -/
theorem noiseWalk_length_bounds (alphabet : List Char) (mods : Nat → Option Op)
    (draws : Nat → Nat) :
    ∀ n s i p pr, s.length = n → (∀ j, i ≤ j → j ∉ pr) →
      s.length - planCount mods i s.length
          ≤ (noiseWalk alphabet mods draws s i p pr).length ∧
        (noiseWalk alphabet mods draws s i p pr).length
          ≤ s.length + planCount mods i s.length := by
  intro n
  induction n using Nat.strong_induction_on with
  | _ n ih =>
    intro s i p pr hn hpr
    match s with
    | [] => simp [noiseWalk_nil, planCount]
    | c :: rest =>
      have hip : i ∉ pr := hpr i le_rfl
      have hpr1 : ∀ j, i + 1 ≤ j → j ∉ pr := fun j hj => hpr j (by omega)
      have hlt : rest.length < n := by simp [← hn]
      cases hm : mods i with
      | none =>
        have h := ih rest.length hlt rest (i + 1) p pr rfl hpr1
        rw [noiseWalk_unplanned alphabet mods draws c rest i p pr hip hm]
        simp only [List.length_cons, planCount_succ, hm, Option.isSome_none,
          Bool.false_eq_true, if_false]
        omega
      | some op =>
        cases op with
        | delete =>
          have h := ih rest.length hlt rest (i + 1) p pr rfl hpr1
          rw [noiseWalk_delete alphabet mods draws c rest i p pr hip hm]
          simp only [List.length_cons, planCount_succ, hm, Option.isSome_some, if_true]
          omega
        | substitute =>
          have h := ih rest.length hlt rest (i + 1)
            (subRetry alphabet c draws 5 (randChoice alphabet (draws p)) (p + 1)).2 pr
            rfl hpr1
          rw [noiseWalk_substitute alphabet mods draws c rest i p pr hip hm]
          simp only [List.length_cons, planCount_succ, hm, Option.isSome_some, if_true]
          omega
        | insert =>
          have h := ih rest.length hlt rest (i + 1) (p + 1) pr rfl hpr1
          rw [noiseWalk_insert alphabet mods draws c rest i p pr hip hm]
          simp only [List.length_cons, planCount_succ, hm, Option.isSome_some, if_true]
          omega
        | swap =>
          cases rest with
          | nil =>
            rw [noiseWalk_swap_last alphabet mods draws c i p pr hip hm]
            simp [planCount_succ, planCount, hm]
          | cons d rest2 =>
            have hpr2 : ∀ j, i + 2 ≤ j → j ∉ (i + 1) :: pr := by
              intro j hj hmem
              rcases List.mem_cons.mp hmem with h | h
              · omega
              · exact hpr j (by omega) h
            have hlt2 : rest2.length < n := by simp [← hn]; omega
            have h := ih rest2.length hlt2 rest2 (i + 2) p ((i + 1) :: pr) rfl hpr2
            rw [noiseWalk_swap_cons alphabet mods draws c d rest2 i p pr hip hm]
            have hsplit : planCount mods i (rest2.length + 1 + 1) =
                (if (mods i).isSome then 1 else 0) +
                  ((if (mods (i + 1)).isSome then 1 else 0) +
                    planCount mods (i + 2) rest2.length) := rfl
            have hb : (if (mods (i + 1)).isSome then 1 else 0) = 0 ∨
                (if (mods (i + 1)).isSome then 1 else 0) = 1 := by
              by_cases hx : (mods (i + 1)).isSome <;> simp [hx]
            simp only [List.length_cons, hsplit, hm, Option.isSome_some, if_true]
            omega

/-- Helper for witnesses: the success branch of add_char_noise unfolded. -/
theorem add_char_noise_ok (text tier lang : String) (ra : Randomness) (p : ℚ)
    (a : List Char) (h0 : text.length ≠ 0)
    (h1 : NOISE_LEVEL_PERCENTAGES.lookup (lower tier) = some p)
    (h2 : ALPHABETS.lookup (lower lang) = some a)
    (ha : a ≠ []) (hk : (⌊p * (text.length : ℚ)⌋).toNat ≠ 0) :
    add_char_noise text tier lang ra =
      Except.ok (String.mk (noiseWalk a (planOf ra) ra.draws text.toList 0 0 [])) := by
  simp only [add_char_noise, if_neg h0, h1, h2, if_neg ha, if_neg hk]

/-- planCount as the length of a filtered index range. -/
theorem planCount_eq_filter (mods : Nat → Option Op) :
    ∀ len i, planCount mods i len =
      ((List.range' i len).filter (fun j => (mods j).isSome)).length := by
  intro len
  induction len with
  | zero => intro i; rfl
  | succ m ihm =>
    intro i
    rw [List.range'_succ, List.filter_cons, planCount_succ, ihm (i + 1)]
    by_cases hx : (mods i).isSome
    · simp [hx]
      omega
    · simp [hx]

/-- The plan of a sampled outcome carries at most as many positions as the
sample has elements. -/
theorem planCount_le_sample (ra : Randomness) (i len : Nat) :
    planCount (planOf ra) i len ≤ ra.sampleIdx.length := by
  rw [planCount_eq_filter]
  have hnd : ((List.range' i len).filter fun j => ((planOf ra) j).isSome).Nodup :=
    (List.nodup_range' i len).filter _
  have hsub : ∀ j, j ∈ ((List.range' i len).filter fun j => ((planOf ra) j).isSome) →
      j ∈ ra.sampleIdx := by
    intro j hj
    have hmem := List.of_mem_filter hj
    by_cases hx : j ∈ ra.sampleIdx
    · exact hx
    · simp [planOf, hx] at hmem
  calc ((List.range' i len).filter fun j => ((planOf ra) j).isSome).length
      = ((List.range' i len).filter fun j => ((planOf ra) j).isSome).toFinset.card :=
        (List.toFinset_card_of_nodup hnd).symm
    _ ≤ ra.sampleIdx.toFinset.card := by
        apply Finset.card_le_card
        intro j hj
        rw [List.mem_toFinset] at hj ⊢
        exact hsub j hj
    _ ≤ ra.sampleIdx.length := List.toFinset_card_le ra.sampleIdx

/-- C1: for every text, recognized tier, registered language with non-empty
alphabet and every outcome of the random draws, the length of the result of
add_char_noise differs from the length of the text by at most
`k = int(tierFraction * len(text))`: deletes shrink by one, inserts grow by
one, substitute and swap preserve length. -/
theorem add_char_noise_length_bounds (text tier lang : String) (ra : Randomness)
    (p : ℚ) (a : List Char)
    (h1 : NOISE_LEVEL_PERCENTAGES.lookup (lower tier) = some p)
    (h2 : ALPHABETS.lookup (lower lang) = some a)
    (hra : ValidSample ra text.length ((⌊p * (text.length : ℚ)⌋).toNat))
    (out : String) (hout : add_char_noise text tier lang ra = Except.ok out) :
    text.length - (⌊p * (text.length : ℚ)⌋).toNat ≤ out.length ∧
      out.length ≤ text.length + (⌊p * (text.length : ℚ)⌋).toNat := by
  by_cases h0 : text.length = 0
  · simp only [add_char_noise, if_pos h0] at hout
    cases hout
    have hzero : ("" : String).length = 0 := rfl
    omega
  · by_cases ha : a = []
    · simp only [add_char_noise, if_neg h0, h1, h2, if_pos ha] at hout
      exact Except.noConfusion hout
    · by_cases hk : (⌊p * (text.length : ℚ)⌋).toNat = 0
      · rw [add_char_noise_k_zero_identity text tier lang ra p a h1 h2 ha hk] at hout
        cases hout
        omega
      · rw [add_char_noise_ok text tier lang ra p a h0 h1 h2 ha hk] at hout
        cases hout
        have hw := noiseWalk_length_bounds a (planOf ra) ra.draws
          text.toList.length text.toList 0 0 [] rfl (by intro j hj hmem; cases hmem)
        have hpc : planCount (planOf ra) 0 text.toList.length ≤
            (⌊p * (text.length : ℚ)⌋).toNat := by
          have hle := planCount_le_sample ra 0 text.toList.length
          have hlen := hra.2.1
          omega
        have hout_len : (String.mk (noiseWalk a (planOf ra) ra.draws text.toList 0 0 [])).length
            = (noiseWalk a (planOf ra) ra.draws text.toList 0 0 []).length := rfl
        have hn : text.toList.length = text.length := rfl
        rw [hout_len]
        rw [hn] at hw hpc
        omega

/-- An outcome of the random draws that deletes the character at index 2. -/
def ra1 : Randomness := ⟨[2], fun _ => Op.delete, fun _ => 0⟩

/-- C1 witness: tier "medium" on a ten-character text gives k = 1, and the
delete outcome at index 2 returns a nine-character result within the
length bounds. -/
theorem add_char_noise_length_bounds_witness :
    ("abcdefghij" : String).length -
        (⌊(15/100 : ℚ) * (("abcdefghij" : String).length : ℚ)⌋).toNat ≤
        ("abdefghij" : String).length ∧
      ("abdefghij" : String).length ≤ ("abcdefghij" : String).length +
        (⌊(15/100 : ℚ) * (("abcdefghij" : String).length : ℚ)⌋).toNat :=
  add_char_noise_length_bounds "abcdefghij" "medium" "english" ra1 (15/100)
    englishAlphabet rfl rfl
    (by
      show ValidSample ra1 10 ((⌊(15/100 : ℚ) * ((10 : Nat) : ℚ)⌋).toNat)
      have hk : (⌊(15/100 : ℚ) * ((10 : Nat) : ℚ)⌋).toNat = 1 := by norm_num
      rw [hk]
      exact ⟨by decide, rfl, by decide⟩)
    "abdefghij"
    (by
      rw [add_char_noise_ok "abcdefghij" "medium" "english" ra1 (15/100)
        englishAlphabet (by decide) rfl rfl (by decide)
        (by rw [show ("abcdefghij" : String).length = 10 from rfl]; norm_num)]
      exact congrArg Except.ok (by decide))

/-- The walk only reads the plan at positions it has not yet passed and
that were not consumed: two plans agreeing there walk identically. -/
theorem noiseWalk_congr (alphabet : List Char) (draws : Nat → Nat)
    (mods1 mods2 : Nat → Option Op) :
    ∀ n s i p pr, s.length = n → (∀ j, i ≤ j → j ∉ pr → mods1 j = mods2 j) →
      noiseWalk alphabet mods1 draws s i p pr =
        noiseWalk alphabet mods2 draws s i p pr := by
  intro n
  induction n using Nat.strong_induction_on with
  | _ n ih =>
    intro s i p pr hn hagree
    match s with
    | [] => rfl
    | c :: rest =>
      have hlt : rest.length < n := by simp [← hn]
      have hag1 : ∀ j, i + 1 ≤ j → j ∉ pr → mods1 j = mods2 j :=
        fun j hj hnp => hagree j (by omega) hnp
      by_cases hip : i ∈ pr
      · rw [noiseWalk_skip alphabet mods1 draws c rest i p pr hip,
          noiseWalk_skip alphabet mods2 draws c rest i p pr hip]
        exact ih rest.length hlt rest (i + 1) p pr rfl hag1
      · have hmi : mods1 i = mods2 i := hagree i le_rfl hip
        cases hm2 : mods2 i with
        | none =>
          rw [noiseWalk_unplanned alphabet mods1 draws c rest i p pr hip (hmi.trans hm2),
            noiseWalk_unplanned alphabet mods2 draws c rest i p pr hip hm2]
          rw [ih rest.length hlt rest (i + 1) p pr rfl hag1]
        | some op =>
          cases op with
          | delete =>
            rw [noiseWalk_delete alphabet mods1 draws c rest i p pr hip (hmi.trans hm2),
              noiseWalk_delete alphabet mods2 draws c rest i p pr hip hm2]
            exact ih rest.length hlt rest (i + 1) p pr rfl hag1
          | substitute =>
            rw [noiseWalk_substitute alphabet mods1 draws c rest i p pr hip (hmi.trans hm2),
              noiseWalk_substitute alphabet mods2 draws c rest i p pr hip hm2]
            rw [ih rest.length hlt rest (i + 1)
              (subRetry alphabet c draws 5 (randChoice alphabet (draws p)) (p + 1)).2
              pr rfl hag1]
          | insert =>
            rw [noiseWalk_insert alphabet mods1 draws c rest i p pr hip (hmi.trans hm2),
              noiseWalk_insert alphabet mods2 draws c rest i p pr hip hm2]
            rw [ih rest.length hlt rest (i + 1) (p + 1) pr rfl hag1]
          | swap =>
            cases rest with
            | nil =>
              rw [noiseWalk_swap_last alphabet mods1 draws c i p pr hip (hmi.trans hm2),
                noiseWalk_swap_last alphabet mods2 draws c i p pr hip hm2]
            | cons d rest2 =>
              have hlt2 : rest2.length < n := by simp [← hn]; omega
              have hag2 : ∀ j, i + 2 ≤ j → j ∉ (i + 1) :: pr → mods1 j = mods2 j := by
                intro j hj hnp
                exact hagree j (by omega) (fun hmem => hnp (List.mem_cons_of_mem _ hmem))
              rw [noiseWalk_swap_cons alphabet mods1 draws c d rest2 i p pr hip (hmi.trans hm2),
                noiseWalk_swap_cons alphabet mods2 draws c d rest2 i p pr hip hm2]
              rw [ih rest2.length hlt2 rest2 (i + 2) p ((i + 1) :: pr) rfl hag2]

/-- C2: when the plan assigns Swap to index i and i + 1 is a valid index,
the walk emits the character at i + 1 followed by the character at i,
marks i + 1 as consumed, and the result does not depend on any operation
independently planned at i + 1 (the plan there may be replaced by an
arbitrary value g without changing the walk: Swap always wins). -/
theorem noiseWalk_swap_consumes_neighbor (alphabet : List Char)
    (mods : Nat → Option Op) (draws : Nat → Nat) (l : List Char) (i p : Nat)
    (pr : List Nat) (g : Option Op)
    (hi : i + 1 < l.length) (hsw : mods i = some Op.swap) (hpr : i ∉ pr) :
    noiseWalk alphabet (Function.update mods (i + 1) g) draws (l.drop i) i p pr =
      l.getD (i + 1) ' ' :: l.getD i ' ' ::
        noiseWalk alphabet mods draws (l.drop (i + 2)) (i + 2) p ((i + 1) :: pr) := by
  have hi0 : i < l.length := by omega
  have hdrop : l.drop i = l.getD i ' ' :: l.getD (i + 1) ' ' :: l.drop (i + 2) := by
    rw [List.drop_eq_getElem_cons hi0, List.drop_eq_getElem_cons hi,
      List.getD_eq_getElem l ' ' hi0, List.getD_eq_getElem l ' ' hi]
  have hupd_i : Function.update mods (i + 1) g i = some Op.swap := by
    have hne : i ≠ i + 1 := by omega
    rw [Function.update_noteq hne]
    exact hsw
  rw [hdrop, noiseWalk_swap_cons alphabet (Function.update mods (i + 1) g) draws
    (l.getD i ' ') (l.getD (i + 1) ' ') (l.drop (i + 2)) i p pr hpr hupd_i]
  rw [noiseWalk_congr alphabet draws (Function.update mods (i + 1) g) mods
    (l.drop (i + 2)).length (l.drop (i + 2)) (i + 2) p ((i + 1) :: pr) rfl
    (fun j hj _ => Function.update_noteq (show j ≠ i + 1 by omega) g mods)]

/-- C2 witness: a concrete swap at index 0 of "ab" with a delete
independently planned at index 1; the delete is discarded. -/
theorem noiseWalk_swap_consumes_neighbor_witness :
    noiseWalk englishAlphabet
        (Function.update (fun j => if j = 0 then some Op.swap else none) (0 + 1)
          (some Op.delete)) (fun _ => 0) (['a', 'b'].drop 0) 0 0 [] =
      ['a', 'b'].getD (0 + 1) ' ' :: ['a', 'b'].getD 0 ' ' ::
        noiseWalk englishAlphabet (fun j => if j = 0 then some Op.swap else none)
          (fun _ => 0) (['a', 'b'].drop (0 + 2)) (0 + 2) 0 [0 + 1] :=
  noiseWalk_swap_consumes_neighbor englishAlphabet
    (fun j => if j = 0 then some Op.swap else none) (fun _ => 0) ['a', 'b'] 0 0 []
    (some Op.delete) (by decide) rfl (by decide)

/-- C5: when Swap is planned at the final index, the walk emits the last
character unchanged (no-op fallback).  The walk is a total function over
the suffix, so no read past the end of the text can occur. -/
theorem noiseWalk_swap_at_last (alphabet : List Char) (mods : Nat → Option Op)
    (draws : Nat → Nat) (l : List Char) (p : Nat) (pr : List Nat)
    (hne : l ≠ []) (hsw : mods (l.length - 1) = some Op.swap)
    (hpr : (l.length - 1) ∉ pr) :
    noiseWalk alphabet mods draws (l.drop (l.length - 1)) (l.length - 1) p pr =
      [l.getLast hne] := by
  have hlt : l.length - 1 < l.length := by
    cases l with
    | nil => exact absurd rfl hne
    | cons a t => simp
  have hdrop : l.drop (l.length - 1) = [l.getLast hne] := by
    rw [List.drop_eq_getElem_cons hlt]
    have h2 : l.length - 1 + 1 = l.length := by omega
    rw [h2, List.drop_length, List.getLast_eq_getElem]
  rw [hdrop]
  exact noiseWalk_swap_last alphabet mods draws (l.getLast hne) (l.length - 1) p pr
    hpr hsw

/-- C5 witness: swap planned at the final index 1 of "ab" leaves the last
character in place. -/
theorem noiseWalk_swap_at_last_witness :
    noiseWalk englishAlphabet (fun j => if j = 1 then some Op.swap else none)
        (fun _ => 0) (['a', 'b'].drop ((['a', 'b'] : List Char).length - 1))
        ((['a', 'b'] : List Char).length - 1) 0 [] =
      [(['a', 'b'] : List Char).getLast (by decide)] :=
  noiseWalk_swap_at_last englishAlphabet
    (fun j => if j = 1 then some Op.swap else none) (fun _ => 0) ['a', 'b'] 0 []
    (by decide) rfl (by decide)

/-- random.choice on a non-empty list returns one of its members. -/
theorem randChoice_mem (l : List Char) (hl : l ≠ []) (d : Nat) :
    randChoice l d ∈ l := by
  unfold randChoice
  have hlen : 0 < l.length := List.length_pos.mpr hl
  have hmod : d % l.length < l.length := Nat.mod_lt _ hlen
  rw [List.getD_eq_getElem l ' ' hmod]
  exact List.getElem_mem hmod

/-- The retry loop only replaces its candidate by further alphabet draws. -/
theorem subRetry_mem (alphabet : List Char) (orig : Char) (draws : Nat → Nat)
    (hl : alphabet ≠ []) :
    ∀ r cur p, cur ∈ alphabet → (subRetry alphabet orig draws r cur p).1 ∈ alphabet := by
  intro r
  induction r with
  | zero => intro cur p h; exact h
  | succ m ihm =>
    intro cur p h
    simp only [subRetry]
    by_cases hc : cur = orig ∧ 1 < alphabet.length
    · rw [if_pos hc]
      exact ihm _ _ (randChoice_mem alphabet hl (draws p))
    · rw [if_neg hc]
      exact h

/-- Every character the walk emits comes from the processed suffix or from
the alphabet. -/
theorem noiseWalk_mem_text_or_alphabet (alphabet : List Char)
    (mods : Nat → Option Op) (draws : Nat → Nat) (hl : alphabet ≠ []) :
    ∀ n s i p pr, s.length = n →
      ∀ ch, ch ∈ noiseWalk alphabet mods draws s i p pr → ch ∈ s ∨ ch ∈ alphabet := by
  intro n
  induction n using Nat.strong_induction_on with
  | _ n ih =>
    intro s i p pr hn ch hch
    match s with
    | [] => rw [noiseWalk_nil] at hch; cases hch
    | c :: rest =>
      have hlt : rest.length < n := by simp [← hn]
      by_cases hip : i ∈ pr
      · rw [noiseWalk_skip alphabet mods draws c rest i p pr hip] at hch
        rcases ih rest.length hlt rest (i + 1) p pr rfl ch hch with h | h
        · exact Or.inl (List.mem_cons_of_mem c h)
        · exact Or.inr h
      · cases hm : mods i with
        | none =>
          rw [noiseWalk_unplanned alphabet mods draws c rest i p pr hip hm] at hch
          rcases List.mem_cons.mp hch with h | h
          · exact Or.inl (h ▸ List.mem_cons_self c rest)
          · rcases ih rest.length hlt rest (i + 1) p pr rfl ch h with h2 | h2
            · exact Or.inl (List.mem_cons_of_mem c h2)
            · exact Or.inr h2
        | some op =>
          cases op with
          | delete =>
            rw [noiseWalk_delete alphabet mods draws c rest i p pr hip hm] at hch
            rcases ih rest.length hlt rest (i + 1) p pr rfl ch hch with h | h
            · exact Or.inl (List.mem_cons_of_mem c h)
            · exact Or.inr h
          | substitute =>
            rw [noiseWalk_substitute alphabet mods draws c rest i p pr hip hm] at hch
            rcases List.mem_cons.mp hch with h | h
            · refine Or.inr (h ▸ ?_)
              exact subRetry_mem alphabet c draws hl 5
                (randChoice alphabet (draws p)) (p + 1)
                (randChoice_mem alphabet hl (draws p))
            · rcases ih rest.length hlt rest (i + 1)
                (subRetry alphabet c draws 5 (randChoice alphabet (draws p)) (p + 1)).2
                pr rfl ch h with h2 | h2
              · exact Or.inl (List.mem_cons_of_mem c h2)
              · exact Or.inr h2
          | insert =>
            rw [noiseWalk_insert alphabet mods draws c rest i p pr hip hm] at hch
            rcases List.mem_cons.mp hch with h | h
            · exact Or.inr (h ▸ randChoice_mem alphabet hl (draws p))
            · rcases List.mem_cons.mp h with h2 | h2
              · exact Or.inl (h2 ▸ List.mem_cons_self c rest)
              · rcases ih rest.length hlt rest (i + 1) (p + 1) pr rfl ch h2 with h3 | h3
                · exact Or.inl (List.mem_cons_of_mem c h3)
                · exact Or.inr h3
          | swap =>
            cases rest with
            | nil =>
              rw [noiseWalk_swap_last alphabet mods draws c i p pr hip hm] at hch
              rcases List.mem_cons.mp hch with h | h
              · exact Or.inl (h ▸ List.mem_cons_self c [])
              · cases h
            | cons d rest2 =>
              have hlt2 : rest2.length < n := by simp [← hn]; omega
              rw [noiseWalk_swap_cons alphabet mods draws c d rest2 i p pr hip hm] at hch
              rcases List.mem_cons.mp hch with h | h
              · exact Or.inl (by rw [h]; exact List.mem_cons_of_mem c (List.mem_cons_self d rest2))
              · rcases List.mem_cons.mp h with h2 | h2
                · exact Or.inl (h2 ▸ List.mem_cons_self c (d :: rest2))
                · rcases ih rest2.length hlt2 rest2 (i + 2) p ((i + 1) :: pr) rfl
                    ch h2 with h3 | h3
                  · exact Or.inl (List.mem_cons_of_mem c (List.mem_cons_of_mem d h3))
                  · exact Or.inr h3

/-- C10: for every valid input and every outcome of the random draws, each
character of the string returned by add_char_noise either occurs in the
original text or belongs to the selected language alphabet (inserted and
substituted characters are alphabet draws; all others are copies of
original characters). -/
theorem add_char_noise_chars_from_text_or_alphabet (text tier lang : String)
    (ra : Randomness) (p : ℚ) (a : List Char)
    (h1 : NOISE_LEVEL_PERCENTAGES.lookup (lower tier) = some p)
    (h2 : ALPHABETS.lookup (lower lang) = some a)
    (out : String) (hout : add_char_noise text tier lang ra = Except.ok out) :
    ∀ ch ∈ out.toList, ch ∈ text.toList ∨ ch ∈ a := by
  by_cases h0 : text.length = 0
  · simp only [add_char_noise, if_pos h0] at hout
    cases hout
    intro ch hch
    have hnil : ("" : String).toList = [] := rfl
    rw [hnil] at hch
    cases hch
  · by_cases ha : a = []
    · simp only [add_char_noise, if_neg h0, h1, h2, if_pos ha] at hout
      exact Except.noConfusion hout
    · by_cases hk : (⌊p * (text.length : ℚ)⌋).toNat = 0
      · rw [add_char_noise_k_zero_identity text tier lang ra p a h1 h2 ha hk] at hout
        cases hout
        intro ch hch
        exact Or.inl hch
      · rw [add_char_noise_ok text tier lang ra p a h0 h1 h2 ha hk] at hout
        cases hout
        intro ch hch
        have hch2 : ch ∈ noiseWalk a (planOf ra) ra.draws text.toList 0 0 [] := hch
        exact noiseWalk_mem_text_or_alphabet a (planOf ra) ra.draws ha
          text.toList.length text.toList 0 0 [] rfl ch hch2

/-- C10 witness: in the delete outcome on "abcdefghij", the character b of
the output comes from the original text or the english alphabet. -/
theorem add_char_noise_chars_from_text_or_alphabet_witness :
    ('b' : Char) ∈ ("abcdefghij" : String).toList ∨ ('b' : Char) ∈ englishAlphabet :=
  add_char_noise_chars_from_text_or_alphabet "abcdefghij" "medium" "english" ra1
    (15/100) englishAlphabet rfl rfl "abdefghij"
    (by
      rw [add_char_noise_ok "abcdefghij" "medium" "english" ra1 (15/100)
        englishAlphabet (by decide) rfl rfl (by decide)
        (by rw [show ("abcdefghij" : String).length = 10 from rfl]; norm_num)]
      exact congrArg Except.ok (by decide))
    'b' (by decide)

/-- Pointwise description of filling one row. -/
theorem fillRow_apply (v : Nat → ℚ) (y : Nat) :
    ∀ xs d y2 x2 ch, fillRow v y xs d y2 x2 ch =
      if y2 = y ∧ x2 ∈ xs then v ch else d y2 x2 ch := by
  intro xs
  induction xs with
  | nil => intro d y2 x2 ch; simp [fillRow]
  | cons x xs ihx =>
    intro d y2 x2 ch
    have hstep : fillRow v y (x :: xs) d = fillRow v y xs (setPixel d y x v) := rfl
    rw [hstep, ihx]
    unfold setPixel
    simp only [List.mem_cons]
    by_cases hy : y2 = y <;> by_cases hx2 : x2 = x <;> by_cases hxs : x2 ∈ xs <;>
      simp [hy, hx2, hxs]

/-- Pointwise description of filling a rectangle of coordinates. -/
theorem fillRect_apply (v : Nat → ℚ) :
    ∀ ys xs d y2 x2 ch, fillRect v ys xs d y2 x2 ch =
      if y2 ∈ ys ∧ x2 ∈ xs then v ch else d y2 x2 ch := by
  intro ys
  induction ys with
  | nil => intro xs d y2 x2 ch; simp [fillRect]
  | cons y ys ihy =>
    intro xs d y2 x2 ch
    have hstep : fillRect v (y :: ys) xs d = fillRect v ys xs (fillRow v y xs d) := rfl
    rw [hstep, ihy, fillRow_apply]
    simp only [List.mem_cons]
    by_cases hy2 : y2 ∈ ys <;> by_cases hyy : y2 = y <;> by_cases hx : x2 ∈ xs <;>
      simp [hy2, hyy, hx]

/-- Pointwise description of cv.rectangle with thickness -1: the filled
region is the inclusive corner rectangle clipped to the image. -/
theorem rectangle_apply (d : Nat → Nat → Nat → ℚ) (h w sy sx ey ex : Nat)
    (v : Nat → ℚ) (y x ch : Nat) :
    rectangle d h w sy sx ey ex v y x ch =
      if (sy ≤ y ∧ y ≤ min ey (h - 1)) ∧ (sx ≤ x ∧ x ≤ min ex (w - 1)) then v ch
      else d y x ch := by
  unfold rectangle
  rw [fillRect_apply]
  have hy : (y ∈ List.range' sy (min ey (h - 1) + 1 - sy)) ↔
      (sy ≤ y ∧ y ≤ min ey (h - 1)) := by
    rw [List.mem_range'_1]
    omega
  have hx : (x ∈ List.range' sx (min ex (w - 1) + 1 - sx)) ↔
      (sx ≤ x ∧ x ≤ min ex (w - 1)) := by
    rw [List.mem_range'_1]
    omega
  rw [if_congr (and_congr hy hx) rfl rfl]

/-- The three occlusion ratios all lie in the unit interval. -/
theorem ratioOfLevel_bounds (level : String) (r : ℚ)
    (h : ratioOfLevel level = some r) : 0 ≤ r ∧ r ≤ 1 := by
  unfold ratioOfLevel at h
  split_ifs at h <;> cases h <;> norm_num

/-- The unclamped patch dimension never exceeds the image dimension. -/
theorem patchDim_le (r : ℚ) (d : Nat) (hr1 : r ≤ 1) :
    patchDim r d ≤ d := by
  unfold patchDim
  have h1 : r * (d : ℚ) ^ 2 ≤ ((d ^ 2 : ℕ) : ℚ) := by
    push_cast
    calc r * (d : ℚ) ^ 2 ≤ 1 * (d : ℚ) ^ 2 :=
          mul_le_mul_of_nonneg_right hr1 (by positivity)
      _ = (d : ℚ) ^ 2 := one_mul _
  have h2 : ⌊r * (d : ℚ) ^ 2⌋ ≤ ((d ^ 2 : ℕ) : ℤ) := by
    calc ⌊r * (d : ℚ) ^ 2⌋ ≤ ⌊((d ^ 2 : ℕ) : ℚ)⌋ := Int.floor_le_floor h1
      _ = ((d ^ 2 : ℕ) : ℤ) := Int.floor_natCast _
  have h3 : (⌊r * (d : ℚ) ^ 2⌋).toNat ≤ d ^ 2 := Int.toNat_le.mpr h2
  calc Nat.sqrt (⌊r * (d : ℚ) ^ 2⌋).toNat ≤ Nat.sqrt (d ^ 2) := Nat.sqrt_le_sqrt h3
    _ = d := Nat.sqrt_eq' d

/-- Patch extent bounds: at least one pixel, at most the image dimension. -/
theorem patchExtent_bounds (r : ℚ) (d : Nat) (hr1 : r ≤ 1)
    (hd : 0 < d) : 1 ≤ patchExtent r d ∧ patchExtent r d ≤ d := by
  constructor
  · exact le_max_left 1 (patchDim r d)
  · exact max_le hd (patchDim_le r d hr1)

/-- The random top-left offset keeps the whole patch inside the image. -/
theorem startOffset_le (draw dim patch : Nat) : startOffset draw dim patch ≤ dim - patch := by
  unfold startOffset
  have := Nat.mod_lt draw (show 0 < dim - patch + 1 by omega)
  omega

/-- Helper: the success branch of apply_occlusion unfolded. -/
theorem apply_occlusion_ok (img : Image) (level : String) (r : ℚ) (dy dx : Nat)
    (hr : ratioOfLevel level = some r)
    (hsz : img.height * img.width * img.channels ≠ 0) :
    apply_occlusion img level dy dx = Except.ok
      { height := img.height, width := img.width, channels := img.channels,
        data := rectangle img.data img.height img.width
          (startOffset dy img.height (patchExtent r img.height))
          (startOffset dx img.width (patchExtent r img.width))
          (startOffset dy img.height (patchExtent r img.height) +
            patchExtent r img.height)
          (startOffset dx img.width (patchExtent r img.width) +
            patchExtent r img.width)
          (meanColor img) } := by
  simp only [apply_occlusion, load_image, if_neg hsz, hr]

/-- C7: on a non-empty image with a recognized tier of ratio r, occlusion
succeeds, preserves the buffer shape, computes per-axis patch extents
`max 1 (floor (sqrt r * dim))`, and every random placement keeps the patch
rectangle inside `[0, width) x [0, height)`, the offset being forced to 0
on an axis the patch fills. -/
theorem apply_occlusion_patch_in_bounds (img : Image) (level : String) (r : ℚ)
    (dy dx : Nat) (hr : ratioOfLevel level = some r)
    (hh : 0 < img.height) (hw : 0 < img.width) (hc : 0 < img.channels) :
    ∃ out, apply_occlusion img level dy dx = Except.ok out ∧
      out.height = img.height ∧ out.width = img.width ∧
      out.channels = img.channels ∧
      1 ≤ patchExtent r img.height ∧ patchExtent r img.height ≤ img.height ∧
      1 ≤ patchExtent r img.width ∧ patchExtent r img.width ≤ img.width ∧
      startOffset dy img.height (patchExtent r img.height) +
          patchExtent r img.height ≤ img.height ∧
      startOffset dx img.width (patchExtent r img.width) +
          patchExtent r img.width ≤ img.width ∧
      (patchExtent r img.height = img.height →
        startOffset dy img.height (patchExtent r img.height) = 0) ∧
      (patchExtent r img.width = img.width →
        startOffset dx img.width (patchExtent r img.width) = 0) := by
  obtain ⟨hr0, hr1⟩ := ratioOfLevel_bounds level r hr
  have hsz : img.height * img.width * img.channels ≠ 0 := by
    have := Nat.mul_pos (Nat.mul_pos hh hw) hc
    omega
  obtain ⟨hph1, hph2⟩ := patchExtent_bounds r img.height hr1 hh
  obtain ⟨hpw1, hpw2⟩ := patchExtent_bounds r img.width hr1 hw
  have hsy := startOffset_le dy img.height (patchExtent r img.height)
  have hsx := startOffset_le dx img.width (patchExtent r img.width)
  refine ⟨_, apply_occlusion_ok img level r dy dx hr hsz, rfl, rfl, rfl,
    hph1, hph2, hpw1, hpw2, by omega, by omega, ?_, ?_⟩
  · intro he
    unfold startOffset
    rw [he, Nat.sub_self]
    exact Nat.mod_one dy
  · intro he
    unfold startOffset
    rw [he, Nat.sub_self]
    exact Nat.mod_one dx

/-- A concrete 100 x 100 all-zero color image (the spec scenario). -/
def img100 : Image := ⟨100, 100, 3, fun _ _ _ => 0⟩

/-- C7 witness: the claim applied to the 100 x 100 x 3 zero image at tier
high (ratio 0.40). -/
theorem apply_occlusion_patch_in_bounds_witness :
    ∃ out, apply_occlusion img100 "high" 5 7 = Except.ok out ∧
      out.height = img100.height ∧ out.width = img100.width ∧
      out.channels = img100.channels ∧
      1 ≤ patchExtent (40/100) img100.height ∧
      patchExtent (40/100) img100.height ≤ img100.height ∧
      1 ≤ patchExtent (40/100) img100.width ∧
      patchExtent (40/100) img100.width ≤ img100.width ∧
      startOffset 5 img100.height (patchExtent (40/100) img100.height) +
          patchExtent (40/100) img100.height ≤ img100.height ∧
      startOffset 7 img100.width (patchExtent (40/100) img100.width) +
          patchExtent (40/100) img100.width ≤ img100.width ∧
      (patchExtent (40/100) img100.height = img100.height →
        startOffset 5 img100.height (patchExtent (40/100) img100.height) = 0) ∧
      (patchExtent (40/100) img100.width = img100.width →
        startOffset 7 img100.width (patchExtent (40/100) img100.width) = 0) :=
  apply_occlusion_patch_in_bounds img100 "high" (40/100) 5 7 rfl
    (by decide) (by decide) (by decide)

/-- C8: occlusion leaves the buffer untouched outside the drawn patch
rectangle, and fills the patch with the per-channel mean of the whole image
computed before drawing.  (The embedding is pure, realizing the copy made
by the ndarray branch of `_load_image`: the caller input is never
mutated.) -/
theorem apply_occlusion_frame (img : Image) (level : String) (r : ℚ)
    (dy dx : Nat) (hr : ratioOfLevel level = some r)
    (hh : 0 < img.height) (hw : 0 < img.width) (hc : 0 < img.channels)
    (out : Image) (hout : apply_occlusion img level dy dx = Except.ok out) :
    ∀ y x ch, y < img.height → x < img.width →
      (¬(startOffset dy img.height (patchExtent r img.height) ≤ y ∧
          y ≤ startOffset dy img.height (patchExtent r img.height) +
            patchExtent r img.height ∧
          startOffset dx img.width (patchExtent r img.width) ≤ x ∧
          x ≤ startOffset dx img.width (patchExtent r img.width) +
            patchExtent r img.width) →
        out.data y x ch = img.data y x ch) ∧
      ((startOffset dy img.height (patchExtent r img.height) ≤ y ∧
          y ≤ startOffset dy img.height (patchExtent r img.height) +
            patchExtent r img.height ∧
          startOffset dx img.width (patchExtent r img.width) ≤ x ∧
          x ≤ startOffset dx img.width (patchExtent r img.width) +
            patchExtent r img.width) →
        out.data y x ch = meanColor img ch) := by
  obtain ⟨hr0, hr1⟩ := ratioOfLevel_bounds level r hr
  have hsz : img.height * img.width * img.channels ≠ 0 := by
    have := Nat.mul_pos (Nat.mul_pos hh hw) hc
    omega
  rw [apply_occlusion_ok img level r dy dx hr hsz] at hout
  cases hout
  intro y x ch hy hx
  obtain ⟨hph1, hph2⟩ := patchExtent_bounds r img.height hr1 hh
  obtain ⟨hpw1, hpw2⟩ := patchExtent_bounds r img.width hr1 hw
  have hsy := startOffset_le dy img.height (patchExtent r img.height)
  have hsx := startOffset_le dx img.width (patchExtent r img.width)
  have hdata : ∀ e, ((⟨img.height, img.width, img.channels, e⟩ : Image)).data = e :=
    fun e => rfl
  rw [hdata]
  rw [rectangle_apply]
  have hcond : ((startOffset dy img.height (patchExtent r img.height) ≤ y ∧
        y ≤ min (startOffset dy img.height (patchExtent r img.height) +
          patchExtent r img.height) (img.height - 1)) ∧
      (startOffset dx img.width (patchExtent r img.width) ≤ x ∧
        x ≤ min (startOffset dx img.width (patchExtent r img.width) +
          patchExtent r img.width) (img.width - 1))) ↔
      (startOffset dy img.height (patchExtent r img.height) ≤ y ∧
        y ≤ startOffset dy img.height (patchExtent r img.height) +
          patchExtent r img.height ∧
        startOffset dx img.width (patchExtent r img.width) ≤ x ∧
        x ≤ startOffset dx img.width (patchExtent r img.width) +
          patchExtent r img.width) := by
    rw [Nat.le_min, Nat.le_min]
    omega
  rw [if_congr hcond rfl rfl]
  constructor
  · intro hno
    rw [if_neg hno]
  · intro hyes
    rw [if_pos hyes]

/-- The patch extent of ratio 0.40 on a 100-pixel axis is 63 pixels
(the spec scenario floor (sqrt 0.4 * 100) = 63). -/
theorem patchExtent_high_100 : patchExtent (40/100 : ℚ) 100 = 63 := by
  unfold patchExtent patchDim
  rw [show ⌊(40/100 : ℚ) * ((100 : Nat) : ℚ) ^ 2⌋ = 4000 by push_cast; norm_num]
  rw [show ((4000 : ℤ)).toNat = 4000 from rfl]
  rw [show Nat.sqrt 4000 = 63 from (Nat.eq_sqrt.mpr (by norm_num)).symm]
  decide

/-- The buffer apply_occlusion returns on the 100 x 100 x 3 zero image at
tier high with both offset draws 0. -/
def occOut : Image :=
  { height := 100, width := 100, channels := 3,
    data := rectangle img100.data 100 100
      (startOffset 0 100 (patchExtent (40/100) 100))
      (startOffset 0 100 (patchExtent (40/100) 100))
      (startOffset 0 100 (patchExtent (40/100) 100) + patchExtent (40/100) 100)
      (startOffset 0 100 (patchExtent (40/100) 100) + patchExtent (40/100) 100)
      (meanColor img100) }

/-- C8 witness: on the spec scenario, a pixel outside the drawn patch is
unchanged and a pixel inside it carries the mean color. -/
theorem apply_occlusion_frame_witness :
    occOut.data 99 99 0 = img100.data 99 99 0 ∧
      occOut.data 10 10 1 = meanColor img100 1 := by
  have hout : apply_occlusion img100 "high" 0 0 = Except.ok occOut :=
    apply_occlusion_ok img100 "high" (40/100) 0 0 rfl (by decide)
  have h := apply_occlusion_frame img100 "high" (40/100) 0 0 rfl
    (by decide) (by decide) (by decide) occOut hout
  simp only [show img100.height = 100 from rfl, show img100.width = 100 from rfl,
    patchExtent_high_100] at h
  constructor
  · exact (h 99 99 0 (by decide) (by decide)).1 (by decide)
  · exact (h 10 10 1 (by decide) (by decide)).2 (by decide)
